import Mathlib

/-!
Shallow embedding of the earnings-date fetcher (`src/app.py`).

The program fetches, for each ticker symbol of an uploaded spreadsheet, the
next earnings date from the yfinance provider, with a two-strategy fallback
(`get_earnings_dates`, then the legacy `calendar`), normalizes the raw
date-like candidates to UTC instants, selects the next upcoming date (or the
latest past one), and merges the per-symbol results back onto the original
rows.

Modelling choices:
- a UTC instant is an `Int` (directly comparable, hashable);
- a raw date-like candidate is either a value pandas can parse to an instant
  (`Candidate.valid t`) or one on which `pd.to_datetime` raises
  (`Candidate.malformed s`, e.g. the empty string or "N/A");
- the external provider's responses (the shapes `get_earnings_dates` and
  `calendar` can take, including raising) are the inductive types
  `GedResponse` and `CalResponse`; an environment `YfEnv` packages them with
  the current time and whether `yf.Ticker` itself raises;
- pandas cells of the `Symbol` column are `Option String` (`none` = NaN);
  `astype(str)` turns NaN into the literal string "nan".
-/

namespace EarningsApp

/-- A raw date-like candidate value: either parseable by pandas to the UTC
instant `t`, or malformed (pandas raises on it / coerces it to NaT). -/
inductive Candidate where
  | valid (t : Int)
  | malformed (s : String)
deriving DecidableEq, Repr

/-- `pd.to_datetime(d, utc=True)`: succeeds on a parseable value, raises
(an `Except.error`) on a malformed one. -/
def toDatetimeUTC : Candidate → Except String Int
  | .valid t => .ok t
  | .malformed s => .error ("could not parse " ++ s)

/-- `pd.to_datetime(x, errors="coerce")` followed by dropping NaT entries:
a malformed value becomes `none` and is filtered out. -/
def parseCoerce (c : Candidate) : Option Int :=
  (toDatetimeUTC c).toOption

/-- Python `str.upper()` (the symbols in play are ASCII): upper-case every
character. Implemented on the character list so that it evaluates by
kernel reduction. -/
def strUpper (s : String) : String :=
  ⟨s.data.map Char.toUpper⟩

/-- Python `str.lower()`. -/
def strLower (s : String) : String :=
  ⟨s.data.map Char.toLower⟩

/-- Python `str.strip()`: drop whitespace from both ends. -/
def strStrip (s : String) : String :=
  ⟨((s.data.dropWhile Char.isWhitespace).reverse.dropWhile
      Char.isWhitespace).reverse⟩

/-- Does the second list start with the first? -/
def leadsWith : List Char → List Char → Bool
  | [], _ => true
  | _ :: _, [] => false
  | a :: as, b :: bs => a == b && leadsWith as bs

/-- Does the second list contain the first as a contiguous run? -/
def containsSeq (needle : List Char) : List Char → Bool
  | [] => leadsWith needle []
  | h :: t => leadsWith needle (h :: t) || containsSeq needle t

/-- Column name check `"date" in c.lower()` (substring, case-insensitive). -/
def hasDateSub (c : String) : Bool :=
  containsSeq "date".data (strLower c).data

/-- First column whose name contains "date" (case-insensitive), as in the
loop over `df.columns` in `fetch_from_yf`. -/
def findDateCol (cols : List (String × List Candidate)) :
    Option (String × List Candidate) :=
  cols.find? (fun p => hasDateSub p.1)

/-- Shape of a `t.get_earnings_dates(limit=12)` response:
it may raise, return `None`/a non-DataFrame, return a frame with a
`DatetimeIndex` (whose length is `len(df)`), or a frame with `nrows` rows
and named columns of raw candidates. -/
inductive GedResponse where
  | raise
  | noData
  | dtIndex (dates : List Int)
  | table (nrows : Nat) (cols : List (String × List Candidate))
deriving DecidableEq, Repr

/-- The value found at the "Earnings Date" row of a legacy calendar frame:
a timestamp, an iterable of raw values, a non-iterable scalar, or a value
on which `list(val)` raises. -/
inductive CalValue where
  | ts (t : Int)
  | seqVal (xs : List Candidate)
  | scalar (c : Candidate)
  | seqRaise
deriving DecidableEq, Repr

/-- Shape of a `t.calendar` response: it may raise, be `None`/empty/not a
DataFrame, have an "Earnings Date" row in its index, or an "Earnings Date"
column. -/
inductive CalResponse where
  | raise
  | noData
  | withIndexRow (val : CalValue)
  | withColumn (vals : List Candidate)
deriving DecidableEq, Repr

/-- Strategy 1 of `fetch_from_yf` (lines 59-80): `get_earnings_dates`.
Returns the raw candidates it extends `dt_candidates` with, together with
the value the strategy leaves in `used` (set whenever `len(df) > 0`,
even when no date column is found). Exceptions are swallowed. -/
def modernFetch : GedResponse → List Candidate × Option String
  | .raise => ([], none)
  | .noData => ([], none)
  | .dtIndex dates =>
      if 0 < dates.length then
        (dates.map Candidate.valid, some "get_earnings_dates")
      else ([], none)
  | .table nrows cols =>
      if 0 < nrows then
        ((match findDateCol cols with
          | some p => (p.2.filterMap parseCoerce).map Candidate.valid
          | none => []), some "get_earnings_dates")
      else ([], none)

/-- Strategy 2 of `fetch_from_yf` (lines 83-108): the legacy `calendar`.
Returns the candidates it assigns to `dt_candidates` and the tag it
assigns to `used` (`none` = leaves `used` unchanged). Exceptions are
swallowed; note that in the index-row branch `used` is set to
"calendar:index" even when extracting the value's elements failed. -/
def legacyFetch : CalResponse → List Candidate × Option String
  | .raise => ([], none)
  | .noData => ([], none)
  | .withIndexRow v =>
      ((match v with
        | .ts t => [Candidate.valid t]
        | .seqVal xs => (xs.filterMap parseCoerce).map Candidate.valid
        | .scalar c => ([c].filterMap parseCoerce).map Candidate.valid
        | .seqRaise => []), some "calendar:index")
  | .withColumn vals =>
      ((vals.filterMap parseCoerce).map Candidate.valid, some "calendar:column")

/-- The two strategies in strict order (the guard `if not dt_candidates:`
at line 83): the legacy calendar is consulted only when the modern strategy
produced zero candidates, and its tag overwrites `used` only in the
branches that assign it. -/
def sourceAdapter (ged : GedResponse) (cal : CalResponse) :
    List Candidate × Option String :=
  if (modernFetch ged).1.isEmpty then
    ((legacyFetch cal).1,
      if (legacyFetch cal).2.isSome then (legacyFetch cal).2
      else (modernFetch ged).2)
  else modernFetch ged

/-- The per-candidate normalization loop (lines 112-118): each candidate is
parsed inside a try/except; on failure the candidate is skipped
(`continue`), so no exception propagates. -/
def normalizeLoop (cands : List Candidate) : List Int :=
  cands.filterMap (fun d => (toDatetimeUTC d).toOption)

/-- `sorted(set(clean))` (line 119): the distinct parsed instants in
ascending order. -/
def sortedSet (l : List Int) : List Int :=
  List.insertionSort (fun a b => a ≤ b) l.dedup

/-- Normalization of a raw candidate list: parse each (dropping failures),
deduplicate, sort ascending. -/
def normalizeAll (cands : List Candidate) : List Int :=
  sortedSet (normalizeLoop cands)

/-- Selection (lines 121-124): on a non-empty candidate list, the first
element `>= now` of the ascending list if one exists, else the last
element; `none` on an empty list. -/
def selectNext (now : Int) (clean : List Int) : Option Int :=
  if clean.isEmpty then none
  else
    match clean.filter (fun d => now ≤ d) with
    | [] => clean.getLast?
    | f :: _ => some f

/-- The per-symbol result record built by `fetch_from_yf`. The
`NextEarningsDate` ISO-8601 string is represented by the instant itself. -/
structure ResolutionResult where
  Symbol : String
  NextEarningsDate : Option Int
  Source : Option String
  Details : Option String
  Error : Option String
deriving DecidableEq, Repr

/-- Lines 110-131 of `fetch_from_yf`: normalize, select, and package the
result (success sets date, source tag with the "yfinance" fallback, and a
candidate count; failure sets only the error message). -/
def resolveFrom (symbol : String) (now : Int) (cands : List Candidate)
    (used : Option String) : ResolutionResult :=
  match selectNext now (normalizeAll cands) with
  | some d =>
      ⟨symbol, some d, some (used.getD "yfinance"),
        some ("candidates=" ++ toString (normalizeAll cands).length), none⟩
  | none =>
      ⟨symbol, none, none, none, some "No date found via yfinance endpoints"⟩

/-- The external world one `fetch_from_yf` call sees: whether `yf.Ticker`
raises (and with what message), the two endpoint responses, and the current
UTC instant. -/
structure YfEnv where
  tickerRaise : Option String
  ged : GedResponse
  cal : CalResponse
  now : Int
deriving DecidableEq, Repr

/-- `fetch_from_yf(symbol)` (lines 38-136). The outer try/except catches
any exception of the whole resolution and records its message as `Error`. -/
def fetch_from_yf (symbol : String) (env : YfEnv) : ResolutionResult :=
  match env.tickerRaise with
  | some msg => ⟨symbol, none, none, none, some msg⟩
  | none =>
      resolveFrom symbol env.now (sourceAdapter env.ged env.cal).1
        (sourceAdapter env.ged env.cal).2

/-- `astype(str)` on a `Symbol` cell: NaN becomes the literal "nan". -/
def astypeStr : Option String → String
  | none => "nan"
  | some s => s

/-- The cleaning applied before dispatch (line 166):
`astype(str).str.strip().str.upper()`. -/
def cleanSym (c : Option String) : String :=
  strUpper (strStrip (astypeStr c))

/-- `.unique()`: first occurrence of each value, in order (accumulator of
already-seen values). -/
def uniqueFirstAux (seen : List String) : List String → List String
  | [] => []
  | x :: xs =>
      if x ∈ seen then uniqueFirstAux seen xs
      else x :: uniqueFirstAux (x :: seen) xs

/-- `.unique()` on a list. -/
def uniqueFirst (l : List String) : List String :=
  uniqueFirstAux [] l

/-- Line 165-167: clean every cell, drop blanks (`replace({"": NA}).dropna()`),
keep the first occurrence of each distinct symbol. -/
def cleanSymbols (cells : List (Option String)) : List String :=
  uniqueFirst ((cells.map cleanSym).filter (fun s => s ≠ ""))

/-- The batch loop (lines 181-188): one `fetch_from_yf` task per unique
cleaned symbol. `env` gives each symbol its external world; the list is in
dispatch order, completion order being any permutation of it. -/
def runBatch (env : String → YfEnv) (syms : List String) :
    List ResolutionResult :=
  syms.map (fun s => fetch_from_yf s (env s))

/-- An original upload row: its `Symbol` cell and the other columns. -/
structure Row where
  symCell : Option String
  rest : List String
deriving DecidableEq, Repr

/-- A merged output row: the original row plus the four joined result
fields (all `none` when the join found no match). -/
structure OutputRow where
  row : Row
  NextEarningsDate : Option Int
  Source : Option String
  Details : Option String
  Error : Option String
deriving DecidableEq, Repr

/-- The join key built at line 194: `astype(str).str.upper()` — upper-cased
but NOT stripped, unlike `cleanSym`. -/
def mergeKey (c : Option String) : String :=
  strUpper (astypeStr c)

/-- `out.set_index("Symbol")` lookup: the first result whose `Symbol` field
equals the key. -/
def lookupResult (results : List ResolutionResult) (k : String) :
    Option ResolutionResult :=
  results.find? (fun r => r.Symbol == k)

/-- Join of one original row with the result table (lines 195-198): matched
rows copy the four result fields, unmatched rows get all-absent fields. -/
def joinRow (results : List ResolutionResult) (row : Row) : OutputRow :=
  match lookupResult results (mergeKey row.symCell) with
  | some r => ⟨row, r.NextEarningsDate, r.Source, r.Details, r.Error⟩
  | none => ⟨row, none, none, none, none⟩

/-- Lines 193-199: merge the results back onto the original rows, in the
original order, preserving every original column. -/
def mergeRows (rows : List Row) (results : List ResolutionResult) :
    List OutputRow :=
  rows.map (joinRow results)

/-- The uploaded file: unreadable (read_excel raises with a message), or a
table that may or may not have a `Symbol` column. -/
inductive Upload where
  | unreadable (msg : String)
  | table (hasSymbolCol : Bool) (rows : List Row)
deriving DecidableEq, Repr

/-- Outcome of the run: stopped early with one message (`st.stop()`), or
finished with the merged output rows. -/
inductive RunOutcome where
  | stopped (msg : String)
  | finished (out : List OutputRow)
deriving DecidableEq, Repr

/-- The run triggered by the button (lines 153-199). The second component
counts the fetches dispatched: 0 on every early stop. -/
def runApp (u : Upload) (env : String → YfEnv) : RunOutcome × Nat :=
  match u with
  | .unreadable msg => (.stopped ("Failed to read Excel: " ++ msg), 0)
  | .table hasCol rows =>
      if hasCol then
        if (cleanSymbols (rows.map Row.symCell)).isEmpty then
          (.stopped "No symbols found after cleaning.", 0)
        else
          (.finished
            (mergeRows rows
              (runBatch env (cleanSymbols (rows.map Row.symCell)))),
            (cleanSymbols (rows.map Row.symCell)).length)
      else (.stopped "The uploaded file must contain a 'Symbol' column.", 0)

/-! ### Helper lemmas -/

theorem mem_uniqueFirstAux (a : String) :
    ∀ (l seen : List String), a ∈ uniqueFirstAux seen l ↔ a ∈ l ∧ a ∉ seen := by
  intro l
  induction l with
  | nil => intro seen; simp [uniqueFirstAux]
  | cons x xs ih =>
    intro seen
    by_cases hx : x ∈ seen
    · simp only [uniqueFirstAux, if_pos hx, ih, List.mem_cons]
      constructor
      · rintro ⟨h1, h2⟩
        exact ⟨Or.inr h1, h2⟩
      · rintro ⟨h1 | h1, h2⟩
        · exact absurd (h1 ▸ hx) h2
        · exact ⟨h1, h2⟩
    · simp only [uniqueFirstAux, if_neg hx, List.mem_cons, ih]
      by_cases hax : a = x
      · subst hax; simp [hx]
      · tauto

theorem nodup_uniqueFirstAux :
    ∀ (l seen : List String), (uniqueFirstAux seen l).Nodup := by
  intro l
  induction l with
  | nil => intro seen; simp [uniqueFirstAux]
  | cons x xs ih =>
    intro seen
    by_cases hx : x ∈ seen
    · simpa [uniqueFirstAux, hx] using ih seen
    · simp only [uniqueFirstAux, if_neg hx]
      refine List.nodup_cons.mpr ⟨fun hmem => ?_, ih (x :: seen)⟩
      exact ((mem_uniqueFirstAux x xs (x :: seen)).mp hmem).2
        (List.mem_cons_self x seen)

theorem mem_uniqueFirst {a : String} {l : List String} :
    a ∈ uniqueFirst l ↔ a ∈ l := by
  simp [uniqueFirst, mem_uniqueFirstAux]

theorem nodup_uniqueFirst (l : List String) : (uniqueFirst l).Nodup :=
  nodup_uniqueFirstAux l []

theorem nodup_cleanSymbols (cells : List (Option String)) :
    (cleanSymbols cells).Nodup :=
  nodup_uniqueFirst _

theorem mem_cleanSymbols {s : String} {cells : List (Option String)} :
    s ∈ cleanSymbols cells ↔ (∃ c ∈ cells, cleanSym c = s) ∧ s ≠ "" := by
  simp only [cleanSymbols, mem_uniqueFirst, List.mem_filter, List.mem_map,
    decide_not]
  constructor
  · rintro ⟨⟨c, hc, rfl⟩, h2⟩
    exact ⟨⟨c, hc, rfl⟩, by simpa using h2⟩
  · rintro ⟨⟨c, hc, rfl⟩, h2⟩
    exact ⟨⟨c, hc, rfl⟩, by simpa using h2⟩

theorem sorted_normalizeAll (cands : List Candidate) :
    (normalizeAll cands).Sorted (· ≤ ·) :=
  List.sorted_insertionSort _ _

theorem nodup_normalizeAll (cands : List Candidate) :
    (normalizeAll cands).Nodup :=
  (List.perm_insertionSort _ _).symm.nodup (List.nodup_dedup _)

theorem mem_normalizeAll {a : Int} {cands : List Candidate} :
    a ∈ normalizeAll cands ↔ a ∈ normalizeLoop cands := by
  unfold normalizeAll sortedSet
  rw [(List.perm_insertionSort _ _).mem_iff, List.mem_dedup]

theorem normalizeAll_eq_nil_iff {cands : List Candidate} :
    normalizeAll cands = [] ↔ normalizeLoop cands = [] := by
  constructor
  · intro h
    rw [List.eq_nil_iff_forall_not_mem]
    intro a ha
    have := mem_normalizeAll.mpr ha
    rw [h] at this
    simp at this
  · intro h
    rw [List.eq_nil_iff_forall_not_mem]
    intro a ha
    have := mem_normalizeAll.mp ha
    rw [h] at this
    simp at this

theorem mem_of_getLast?_eq {m : Int} :
    ∀ {l : List Int}, l.getLast? = some m → m ∈ l
  | [], h => by simp at h
  | [x], h => by
      simp only [List.getLast?_singleton, Option.some.injEq] at h
      simp [h]
  | _ :: y :: t, h => by
      rw [List.getLast?_cons_cons] at h
      exact List.mem_cons_of_mem _ (mem_of_getLast?_eq h)

theorem le_getLast_of_sorted :
    ∀ {l : List Int}, l.Sorted (· ≤ ·) → ∀ {m : Int}, l.getLast? = some m →
      ∀ a ∈ l, a ≤ m
  | [], _, m, h => by simp at h
  | [x], _, m, h => by
      simp only [List.getLast?_singleton, Option.some.injEq] at h
      intro a ha
      simp only [List.mem_singleton] at ha
      simp [ha, h]
  | x :: y :: t, hs, m, h => by
      rw [List.getLast?_cons_cons] at h
      intro a ha
      rcases List.mem_cons.mp ha with rfl | ha'
      · exact List.rel_of_sorted_cons hs m (mem_of_getLast?_eq h)
      · exact le_getLast_of_sorted hs.of_cons h a ha'

theorem selectNext_eq_none_iff (now : Int) (clean : List Int) :
    selectNext now clean = none ↔ clean = [] := by
  unfold selectNext
  cases clean with
  | nil => simp
  | cons x xs =>
    rw [if_neg (by simp)]
    constructor
    · intro h
      cases hfil : (x :: xs).filter (fun d => now ≤ d) with
      | nil =>
        rw [hfil] at h
        simp only at h
        rw [List.getLast?_eq_getLast _ (by simp)] at h
        simp at h
      | cons f rest => rw [hfil] at h; simp at h
    · intro h; simp at h

theorem selectNext_future (now : Int) {clean : List Int}
    (hs : clean.Sorted (· ≤ ·)) {d0 : Int} (hd0 : d0 ∈ clean)
    (hnow : now ≤ d0) :
    ∃ m, selectNext now clean = some m ∧ m ∈ clean ∧ now ≤ m ∧
      ∀ d ∈ clean, now ≤ d → m ≤ d := by
  have hne : clean ≠ [] := by rintro rfl; simp at hd0
  have hd0f : d0 ∈ clean.filter (fun d => now ≤ d) :=
    List.mem_filter.mpr ⟨hd0, by simpa using hnow⟩
  unfold selectNext
  rw [if_neg (by simpa [List.isEmpty_iff] using hne)]
  cases hfil : clean.filter (fun d => now ≤ d) with
  | nil => rw [hfil] at hd0f; simp at hd0f
  | cons f rest =>
    have hf : f ∈ clean.filter (fun d => now ≤ d) := by
      rw [hfil]; exact List.mem_cons_self f rest
    refine ⟨f, rfl, (List.mem_filter.mp hf).1,
      by simpa using (List.mem_filter.mp hf).2, ?_⟩
    intro d hd hnd
    have hdf : d ∈ clean.filter (fun d => now ≤ d) :=
      List.mem_filter.mpr ⟨hd, by simpa using hnd⟩
    have hsf : (clean.filter (fun d => now ≤ d)).Sorted (· ≤ ·) :=
      hs.filter _
    rw [hfil] at hdf hsf
    rcases List.mem_cons.mp hdf with rfl | hdr
    · exact le_refl d
    · exact List.rel_of_sorted_cons hsf d hdr

theorem selectNext_past (now : Int) {clean : List Int}
    (hs : clean.Sorted (· ≤ ·)) (hne : clean ≠ [])
    (hnof : ∀ d ∈ clean, ¬ now ≤ d) :
    ∃ m, selectNext now clean = some m ∧ m ∈ clean ∧ ∀ d ∈ clean, d ≤ m := by
  have hfil : clean.filter (fun d => now ≤ d) = [] := by
    rw [List.filter_eq_nil_iff]
    intro a ha
    simpa using hnof a ha
  obtain ⟨m, hm⟩ : ∃ m, clean.getLast? = some m := by
    cases clean with
    | nil => exact absurd rfl hne
    | cons x xs => exact ⟨_, List.getLast?_eq_getLast _ (by simp)⟩
  refine ⟨m, ?_, mem_of_getLast?_eq hm, fun d hd => le_getLast_of_sorted hs hm d hd⟩
  unfold selectNext
  rw [if_neg (by simpa [List.isEmpty_iff] using hne), hfil]
  exact hm

theorem resolveFrom_symbol (s : String) (now : Int) (cands : List Candidate)
    (used : Option String) : (resolveFrom s now cands used).Symbol = s := by
  unfold resolveFrom
  cases h : selectNext now (normalizeAll cands) <;> simp [h]

theorem resolveFrom_cases (s : String) (now : Int) (cands : List Candidate)
    (used : Option String) :
    (∃ d, selectNext now (normalizeAll cands) = some d ∧
        resolveFrom s now cands used =
          ⟨s, some d, some (used.getD "yfinance"),
            some ("candidates=" ++ toString (normalizeAll cands).length),
            none⟩) ∨
    (selectNext now (normalizeAll cands) = none ∧
      resolveFrom s now cands used =
        ⟨s, none, none, none, some "No date found via yfinance endpoints"⟩) := by
  unfold resolveFrom
  cases h : selectNext now (normalizeAll cands) with
  | none => exact Or.inr ⟨rfl, rfl⟩
  | some d => exact Or.inl ⟨d, rfl, rfl⟩

theorem fetch_symbol (s : String) (env : YfEnv) :
    (fetch_from_yf s env).Symbol = s := by
  unfold fetch_from_yf
  cases env.tickerRaise with
  | none => exact resolveFrom_symbol s env.now _ _
  | some msg => rfl

theorem fetch_cases (s : String) (env : YfEnv) :
    ((fetch_from_yf s env).NextEarningsDate.isSome ∧
      (fetch_from_yf s env).Error = none) ∨
    ((fetch_from_yf s env).NextEarningsDate = none ∧
      (fetch_from_yf s env).Source = none ∧
      (fetch_from_yf s env).Details = none ∧
      ∃ msg, (fetch_from_yf s env).Error = some msg) := by
  unfold fetch_from_yf
  cases env.tickerRaise with
  | some msg => exact Or.inr ⟨rfl, rfl, rfl, msg, rfl⟩
  | none =>
    rcases resolveFrom_cases s env.now (sourceAdapter env.ged env.cal).1
        (sourceAdapter env.ged env.cal).2 with ⟨d, _, heq⟩ | ⟨_, heq⟩
    · rw [heq]; exact Or.inl ⟨rfl, rfl⟩
    · rw [heq]; exact Or.inr ⟨rfl, rfl, rfl, _, rfl⟩

theorem map_symbol_runBatch (env : String → YfEnv) (syms : List String) :
    (runBatch env syms).map ResolutionResult.Symbol = syms := by
  unfold runBatch
  rw [List.map_map]
  have : (ResolutionResult.Symbol ∘ fun s => fetch_from_yf s (env s)) = id := by
    funext s
    exact fetch_symbol s (env s)
  rw [this, List.map_id]

theorem lookup_runBatch_mem (env : String → YfEnv) {syms : List String}
    {s : String} (hs : s ∈ syms) :
    lookupResult (runBatch env syms) s = some (fetch_from_yf s (env s)) := by
  induction syms with
  | nil => simp at hs
  | cons x xs ih =>
    unfold runBatch lookupResult at *
    simp only [List.map_cons, List.find?_cons]
    by_cases hxs : x = s
    · subst hxs
      have hbeq : ((fetch_from_yf x (env x)).Symbol == x) = true := by
        simp [fetch_symbol]
      rw [hbeq]
    · have hbeq : ((fetch_from_yf x (env x)).Symbol == s) = false := by
        simp [fetch_symbol, hxs]
      rw [hbeq]
      rcases List.mem_cons.mp hs with rfl | hmem
      · exact absurd rfl hxs
      · exact ih hmem

theorem lookup_runBatch_notMem (env : String → YfEnv) {syms : List String}
    {s : String} (hs : s ∉ syms) :
    lookupResult (runBatch env syms) s = none := by
  induction syms with
  | nil => rfl
  | cons x xs ih =>
    unfold runBatch lookupResult at *
    simp only [List.map_cons, List.find?_cons]
    have hxs : x ≠ s := fun h => hs (h ▸ List.mem_cons_self x xs)
    have hbeq : ((fetch_from_yf x (env x)).Symbol == s) = false := by
      simp [fetch_symbol, hxs]
    rw [hbeq]
    exact ih (fun h => hs (List.mem_cons_of_mem x h))

theorem modernFetch_tag {g : GedResponse}
    (h : (modernFetch g).1 ≠ []) :
    (modernFetch g).2 = some "get_earnings_dates" := by
  cases g with
  | raise => simp [modernFetch] at h
  | noData => simp [modernFetch] at h
  | dtIndex dates =>
    by_cases hd : 0 < dates.length
    · simp [modernFetch, hd]
    · simp [modernFetch, hd] at h
  | table n cols =>
    by_cases hn : 0 < n
    · simp [modernFetch, hn]
    · simp [modernFetch, hn] at h

theorem legacyFetch_tag {c : CalResponse}
    (h : (legacyFetch c).1 ≠ []) :
    (legacyFetch c).2 = some "calendar:index" ∨
    (legacyFetch c).2 = some "calendar:column" := by
  cases c with
  | raise => simp [legacyFetch] at h
  | noData => simp [legacyFetch] at h
  | withIndexRow v => exact Or.inl rfl
  | withColumn vals => exact Or.inr rfl

theorem sourceAdapter_tag {g : GedResponse} {c : CalResponse}
    (h : (sourceAdapter g c).1 ≠ []) :
    (sourceAdapter g c).2 = some "get_earnings_dates" ∨
    (sourceAdapter g c).2 = some "calendar:index" ∨
    (sourceAdapter g c).2 = some "calendar:column" := by
  unfold sourceAdapter at *
  by_cases hm : (modernFetch g).1.isEmpty
  · rw [if_pos hm] at h ⊢
    have hlg : (legacyFetch c).1 ≠ [] := by simpa using h
    rcases legacyFetch_tag hlg with h1 | h1 <;> simp [h1]
  · rw [if_neg hm] at h ⊢
    exact Or.inl (modernFetch_tag (by simpa [List.isEmpty_iff] using hm))

theorem fetch_eq_resolve {env : YfEnv} (h : env.tickerRaise = none)
    (s : String) :
    fetch_from_yf s env =
      resolveFrom s env.now (sourceAdapter env.ged env.cal).1
        (sourceAdapter env.ged env.cal).2 := by
  unfold fetch_from_yf
  rw [h]

theorem fetch_raise {env : YfEnv} {msg : String}
    (h : env.tickerRaise = some msg) (s : String) :
    fetch_from_yf s env = ⟨s, none, none, none, some msg⟩ := by
  unfold fetch_from_yf
  rw [h]

theorem resolveFrom_date (s : String) (now : Int) (cands : List Candidate)
    (used : Option String) :
    (resolveFrom s now cands used).NextEarningsDate =
      selectNext now (normalizeAll cands) := by
  unfold resolveFrom
  cases h : selectNext now (normalizeAll cands) <;> simp [h]

theorem modernFetch_valid {g : GedResponse} :
    ∀ c ∈ (modernFetch g).1, ∃ t, c = Candidate.valid t := by
  intro c hc
  cases g with
  | raise => simp [modernFetch] at hc
  | noData => simp [modernFetch] at hc
  | dtIndex dates =>
    by_cases hd : 0 < dates.length
    · simp only [modernFetch, if_pos hd] at hc
      rcases List.mem_map.mp hc with ⟨t, _, rfl⟩
      exact ⟨t, rfl⟩
    · simp [modernFetch, hd] at hc
  | table n cols =>
    by_cases hn : 0 < n
    · simp only [modernFetch, if_pos hn] at hc
      cases hcol : findDateCol cols with
      | none => rw [hcol] at hc; simp at hc
      | some p =>
        rw [hcol] at hc
        rcases List.mem_map.mp hc with ⟨t, _, rfl⟩
        exact ⟨t, rfl⟩
    · simp [modernFetch, hn] at hc

theorem normalizeAll_modern_ne_nil {g : GedResponse}
    (hm : (modernFetch g).1 ≠ []) :
    normalizeAll (modernFetch g).1 ≠ [] := by
  obtain ⟨c, hc⟩ := List.exists_mem_of_ne_nil _ hm
  obtain ⟨t, rfl⟩ := modernFetch_valid c hc
  intro h
  have hmem : t ∈ normalizeAll (modernFetch g).1 := by
    refine mem_normalizeAll.mpr ?_
    unfold normalizeLoop
    exact List.mem_filterMap.mpr ⟨Candidate.valid t, hc, rfl⟩
  rw [h] at hmem
  simp at hmem

theorem mergeRows_get (rows : List Row) (results : List ResolutionResult)
    (i : Nat) (hi : i < rows.length) :
    (mergeRows rows results).get ⟨i, by simpa [mergeRows] using hi⟩ =
      joinRow results (rows.get ⟨i, hi⟩) := by
  unfold mergeRows
  rw [List.get_map]

/-! ### Claim theorems -/

/-- Claim C1: in every symbol resolution the normalized candidate set is
deduplicated and sorted ascending, and the selected date is the earliest
normalized instant `≥ now` when one exists, otherwise the latest instant
when the set is non-empty; when the set is empty the resolution fails
(no date, `Error` set). -/
theorem C1_selection_rule (symbol : String) (env : YfEnv)
    (h : env.tickerRaise = none) :
    (normalizeAll (sourceAdapter env.ged env.cal).1).Sorted (· ≤ ·) ∧
    (normalizeAll (sourceAdapter env.ged env.cal).1).Nodup ∧
    ((∃ d ∈ normalizeAll (sourceAdapter env.ged env.cal).1, env.now ≤ d) →
      ∃ m, (fetch_from_yf symbol env).NextEarningsDate = some m ∧
        m ∈ normalizeAll (sourceAdapter env.ged env.cal).1 ∧ env.now ≤ m ∧
        ∀ d ∈ normalizeAll (sourceAdapter env.ged env.cal).1,
          env.now ≤ d → m ≤ d) ∧
    ((¬ ∃ d ∈ normalizeAll (sourceAdapter env.ged env.cal).1, env.now ≤ d) →
      normalizeAll (sourceAdapter env.ged env.cal).1 ≠ [] →
      ∃ m, (fetch_from_yf symbol env).NextEarningsDate = some m ∧
        m ∈ normalizeAll (sourceAdapter env.ged env.cal).1 ∧
        ∀ d ∈ normalizeAll (sourceAdapter env.ged env.cal).1, d ≤ m) ∧
    (normalizeAll (sourceAdapter env.ged env.cal).1 = [] →
      (fetch_from_yf symbol env).NextEarningsDate = none ∧
      (fetch_from_yf symbol env).Error =
        some "No date found via yfinance endpoints") := by
  have hdate := resolveFrom_date symbol env.now
    (sourceAdapter env.ged env.cal).1 (sourceAdapter env.ged env.cal).2
  have hfe := fetch_eq_resolve h symbol
  refine ⟨sorted_normalizeAll _, nodup_normalizeAll _, ?_, ?_, ?_⟩
  · rintro ⟨d0, hd0, hnow⟩
    obtain ⟨m, hm1, hm2, hm3, hm4⟩ :=
      selectNext_future env.now (sorted_normalizeAll _) hd0 hnow
    exact ⟨m, by rw [hfe, hdate, hm1], hm2, hm3, hm4⟩
  · intro hnof hne
    push_neg at hnof
    obtain ⟨m, hm1, hm2, hm3⟩ :=
      selectNext_past env.now (sorted_normalizeAll _) hne
        (fun d hd => not_le.mpr (hnof d hd))
    exact ⟨m, by rw [hfe, hdate, hm1], hm2, hm3⟩
  · intro hnil
    have hsel : selectNext env.now
        (normalizeAll (sourceAdapter env.ged env.cal).1) = none :=
      (selectNext_eq_none_iff _ _).mpr hnil
    rcases resolveFrom_cases symbol env.now
        (sourceAdapter env.ged env.cal).1 (sourceAdapter env.ged env.cal).2
      with ⟨d, hd, heq⟩ | ⟨_, heq⟩
    · rw [hsel] at hd; exact absurd hd (by simp)
    · rw [hfe, heq]
      exact ⟨rfl, rfl⟩

/-- Witness for C1 at a concrete environment: candidates {100, 200} with
`now = 150` select 200, the earliest future instant. -/
theorem C1_selection_rule_witness :
    ∃ m, (fetch_from_yf "AAPL"
        ⟨none, GedResponse.dtIndex [100, 200], CalResponse.noData, 150⟩
      ).NextEarningsDate = some m ∧
      m ∈ normalizeAll (sourceAdapter (GedResponse.dtIndex [100, 200])
        CalResponse.noData).1 ∧
      (150 : Int) ≤ m ∧
      ∀ d ∈ normalizeAll (sourceAdapter (GedResponse.dtIndex [100, 200])
        CalResponse.noData).1, (150 : Int) ≤ d → m ≤ d :=
  (C1_selection_rule "AAPL"
      ⟨none, GedResponse.dtIndex [100, 200], CalResponse.noData, 150⟩
      rfl).2.2.1 ⟨200, by decide, by decide⟩

/-- Claim C2: every final result has exactly one of
{NextEarningsDate, Error} set, and when `Error` is set the date, source and
details are all absent while the symbol is still present. -/
theorem C2_exactly_one (symbol : String) (env : YfEnv) :
    ((fetch_from_yf symbol env).NextEarningsDate.isSome ↔
      (fetch_from_yf symbol env).Error = none) ∧
    ((fetch_from_yf symbol env).Error.isSome →
      (fetch_from_yf symbol env).NextEarningsDate = none ∧
      (fetch_from_yf symbol env).Source = none ∧
      (fetch_from_yf symbol env).Details = none) ∧
    (fetch_from_yf symbol env).Symbol = symbol := by
  rcases fetch_cases symbol env with ⟨h1, h2⟩ | ⟨h1, h2, h3, msg, h4⟩
  · refine ⟨⟨fun _ => h2, fun _ => h1⟩, fun herr => ?_, fetch_symbol symbol env⟩
    rw [h2] at herr
    simp at herr
  · refine ⟨⟨fun hd => ?_, fun he => ?_⟩, fun _ => ⟨h1, h2, h3⟩,
      fetch_symbol symbol env⟩
    · rw [h1] at hd; simp at hd
    · rw [h4] at he; simp at he

/-- Witness for C2 at a failing environment: `yf.Ticker` raises "boom",
so the error is set and date, source, details are absent. -/
theorem C2_exactly_one_witness :
    (fetch_from_yf "AAPL"
        ⟨some "boom", GedResponse.noData, CalResponse.noData, 0⟩
      ).NextEarningsDate = none ∧
    (fetch_from_yf "AAPL"
        ⟨some "boom", GedResponse.noData, CalResponse.noData, 0⟩
      ).Source = none ∧
    (fetch_from_yf "AAPL"
        ⟨some "boom", GedResponse.noData, CalResponse.noData, 0⟩
      ).Details = none :=
  (C2_exactly_one "AAPL"
      ⟨some "boom", GedResponse.noData, CalResponse.noData, 0⟩).2.1 (by decide)

/-- Claim C3: when the modern strategy (`get_earnings_dates`) yields at
least one raw candidate, the legacy calendar strategy is never consulted
(the adapter's outcome is independent of the calendar response), the
candidate list is exactly the modern strategy's (no merging), the tag is
"get_earnings_dates", and the successful result carries that source tag. -/
theorem C3_strategy_precedence (symbol : String) (env : YfEnv)
    (h : env.tickerRaise = none)
    (hm : (modernFetch env.ged).1 ≠ []) :
    sourceAdapter env.ged env.cal =
      ((modernFetch env.ged).1, some "get_earnings_dates") ∧
    (∀ cal', sourceAdapter env.ged cal' = sourceAdapter env.ged env.cal) ∧
    (fetch_from_yf symbol env).Source = some "get_earnings_dates" ∧
    (fetch_from_yf symbol env).Error = none := by
  have hne : ¬ (modernFetch env.ged).1.isEmpty := by
    simpa [List.isEmpty_iff] using hm
  have hada : sourceAdapter env.ged env.cal = modernFetch env.ged := by
    unfold sourceAdapter
    rw [if_neg hne]
  have htag := modernFetch_tag hm
  have hada2 : sourceAdapter env.ged env.cal =
      ((modernFetch env.ged).1, some "get_earnings_dates") := by
    rw [hada, ← htag]
  refine ⟨hada2, ?_, ?_⟩
  · intro cal'
    rw [hada]
    unfold sourceAdapter
    rw [if_neg hne]
  · have hclean : normalizeAll (sourceAdapter env.ged env.cal).1 ≠ [] := by
      rw [hada2]
      exact normalizeAll_modern_ne_nil hm
    have hsel : selectNext env.now
        (normalizeAll (sourceAdapter env.ged env.cal).1) ≠ none := by
      intro hn
      exact hclean ((selectNext_eq_none_iff _ _).mp hn)
    rcases resolveFrom_cases symbol env.now
        (sourceAdapter env.ged env.cal).1 (sourceAdapter env.ged env.cal).2
      with ⟨d, _, heq⟩ | ⟨hd, _⟩
    · rw [fetch_eq_resolve h symbol, heq]
      have hu : (sourceAdapter env.ged env.cal).2 =
          some "get_earnings_dates" := by rw [hada2]
      rw [hu]
      exact ⟨rfl, rfl⟩
    · exact absurd hd hsel

/-- Witness for C3: the modern strategy returns one date, the result's
source is "get_earnings_dates" whatever the calendar would have said. -/
theorem C3_strategy_precedence_witness :
    sourceAdapter (GedResponse.dtIndex [100])
        (CalResponse.withColumn [Candidate.valid 7]) =
      ((modernFetch (GedResponse.dtIndex [100])).1,
        some "get_earnings_dates") ∧
    (fetch_from_yf "AAPL"
        ⟨none, GedResponse.dtIndex [100],
          CalResponse.withColumn [Candidate.valid 7], 50⟩).Source =
      some "get_earnings_dates" :=
  ⟨(C3_strategy_precedence "AAPL"
      ⟨none, GedResponse.dtIndex [100],
        CalResponse.withColumn [Candidate.valid 7], 50⟩ rfl (by decide)).1,
   (C3_strategy_precedence "AAPL"
      ⟨none, GedResponse.dtIndex [100],
        CalResponse.withColumn [Candidate.valid 7], 50⟩ rfl (by decide)).2.2.1⟩

/-- Claim C4: a candidate the date parser cannot handle (for example the
empty string or "N/A") is dropped by the normalization loop — the parse
failure is caught, the loop's value is unchanged by such a candidate, and
every entry of the sorted deduplicated sequence comes from a parseable
candidate. -/
theorem C4_malformed_dropped (cands : List Candidate) :
    (∀ s, (toDatetimeUTC (Candidate.malformed s)).toOption = none) ∧
    (∀ s, normalizeAll (Candidate.malformed s :: cands) =
      normalizeAll cands) ∧
    (∀ t, t ∈ normalizeAll cands → Candidate.valid t ∈ cands) := by
  refine ⟨fun s => rfl, fun s => ?_, fun t ht => ?_⟩
  · unfold normalizeAll normalizeLoop
    have hnone : (toDatetimeUTC (Candidate.malformed s)).toOption = none := rfl
    rw [List.filterMap_cons, hnone]
  · rcases List.mem_filterMap.mp
        (by simpa [normalizeLoop] using mem_normalizeAll.mp ht)
      with ⟨c, hc, hparse⟩
    cases c with
    | valid u =>
      have hu : u = t := by
        simpa [toDatetimeUTC, Except.toOption] using hparse
      exact hu ▸ hc
    | malformed s => simp [toDatetimeUTC, Except.toOption] at hparse

/-- Witness for C4: with candidates [valid 5, "N/A", ""], the malformed
strings are dropped and the sequence is exactly [5]. -/
theorem C4_malformed_dropped_witness :
    (toDatetimeUTC (Candidate.malformed "N/A")).toOption = none ∧
    normalizeAll (Candidate.malformed "" ::
      [Candidate.valid 5, Candidate.malformed "N/A"]) =
      normalizeAll [Candidate.valid 5, Candidate.malformed "N/A"] ∧
    Candidate.valid 5 ∈ [Candidate.valid 5, Candidate.malformed "N/A"] :=
  ⟨(C4_malformed_dropped [Candidate.valid 5, Candidate.malformed "N/A"]).1
      "N/A",
   (C4_malformed_dropped [Candidate.valid 5, Candidate.malformed "N/A"]).2.1
      "",
   (C4_malformed_dropped [Candidate.valid 5, Candidate.malformed "N/A"]).2.2
      5 (by decide)⟩

/-- Claim C10: a successful resolution always carries one of the three
strategy tags — the generic "yfinance" fallback label is unreachable,
because a non-empty candidate set only arises from a branch that records
its tag. -/
theorem C10_no_generic_source (symbol : String) (env : YfEnv)
    (h : (fetch_from_yf symbol env).NextEarningsDate.isSome) :
    ((fetch_from_yf symbol env).Source = some "get_earnings_dates" ∨
     (fetch_from_yf symbol env).Source = some "calendar:index" ∨
     (fetch_from_yf symbol env).Source = some "calendar:column") ∧
    (fetch_from_yf symbol env).Source ≠ some "yfinance" := by
  cases htick : env.tickerRaise with
  | some msg =>
    rw [fetch_raise htick] at h
    simp at h
  | none =>
    rw [fetch_eq_resolve htick symbol] at h ⊢
    rcases resolveFrom_cases symbol env.now
        (sourceAdapter env.ged env.cal).1 (sourceAdapter env.ged env.cal).2
      with ⟨d, hd, heq⟩ | ⟨_, heq⟩
    · have hclean : normalizeAll (sourceAdapter env.ged env.cal).1 ≠ [] := by
        intro hnil
        rw [(selectNext_eq_none_iff _ _).mpr hnil] at hd
        simp at hd
      have hcands : (sourceAdapter env.ged env.cal).1 ≠ [] := by
        intro hnil
        rw [hnil] at hclean
        exact hclean rfl
      rcases sourceAdapter_tag hcands with ht | ht | ht <;>
        · rw [heq]
          simp only [ht]
          refine ⟨by tauto, by simp⟩
    · rw [heq] at h
      simp at h

/-- Witness for C10: a legacy calendar-column success carries the tag
"calendar:column", not "yfinance". -/
theorem C10_no_generic_source_witness :
    (fetch_from_yf "AAPL"
        ⟨none, GedResponse.noData,
          CalResponse.withColumn [Candidate.valid 7], 5⟩).Source ≠
      some "yfinance" :=
  (C10_no_generic_source "AAPL"
      ⟨none, GedResponse.noData,
        CalResponse.withColumn [Candidate.valid 7], 5⟩ (by decide)).2

/-- Claim C7: after trimming, upper-casing and excluding blanks, each
unique symbol is dispatched exactly once and any completion order of the
batch holds exactly one result per unique cleaned symbol — no duplicates,
none missing — with per-symbol failures captured inside the result record
(the task still yields a record; nothing is thrown out of the loop). -/
theorem C7_batch_one_result_per_symbol (cells : List (Option String))
    (env : String → YfEnv) (out : List ResolutionResult)
    (hperm : out.Perm (runBatch env (cleanSymbols cells))) :
    (cleanSymbols cells).Nodup ∧
    (∀ s : String, (out.map ResolutionResult.Symbol).count s =
      if s ∈ cleanSymbols cells then 1 else 0) ∧
    (∀ s ∈ cleanSymbols cells, ∀ msg, (env s).tickerRaise = some msg →
      ∃ r ∈ out, r.Symbol = s ∧ r.Error = some msg) := by
  refine ⟨nodup_cleanSymbols cells, fun s => ?_, fun s hs msg hmsg => ?_⟩
  · have hm : (out.map ResolutionResult.Symbol).Perm (cleanSymbols cells) := by
      have := hperm.map ResolutionResult.Symbol
      rwa [map_symbol_runBatch] at this
    rw [hm.count_eq]
    exact List.count_eq_of_nodup (nodup_cleanSymbols cells)
  · refine ⟨fetch_from_yf s (env s), ?_, fetch_symbol s (env s), ?_⟩
    · refine hperm.mem_iff.mpr ?_
      unfold runBatch
      exact List.mem_map.mpr ⟨s, hs, rfl⟩
    · rw [fetch_raise hmsg]

/-- Witness for C7: upload cells ["aapl", " AAPL ", NaN] clean to
["AAPL", "NAN"]; with a raising provider each unique symbol still gets
exactly one result, and the failure message is captured in it. -/
theorem C7_batch_one_result_per_symbol_witness :
    (((runBatch (fun _ => ⟨some "boom", GedResponse.noData,
          CalResponse.noData, 0⟩)
        (cleanSymbols [some "aapl", some " AAPL ", none])).map
        ResolutionResult.Symbol).count "AAPL" =
      if "AAPL" ∈ cleanSymbols [some "aapl", some " AAPL ", none]
      then 1 else 0) ∧
    (∃ r ∈ runBatch (fun _ => ⟨some "boom", GedResponse.noData,
          CalResponse.noData, 0⟩)
        (cleanSymbols [some "aapl", some " AAPL ", none]),
      r.Symbol = "NAN" ∧ r.Error = some "boom") :=
  ⟨(C7_batch_one_result_per_symbol [some "aapl", some " AAPL ", none]
      (fun _ => ⟨some "boom", GedResponse.noData, CalResponse.noData, 0⟩)
      _ (List.Perm.refl _)).2.1 "AAPL",
   (C7_batch_one_result_per_symbol [some "aapl", some " AAPL ", none]
      (fun _ => ⟨some "boom", GedResponse.noData, CalResponse.noData, 0⟩)
      _ (List.Perm.refl _)).2.2 "NAN" (by decide) "boom" rfl⟩

/-- Claim C8: an unreadable file, a missing `Symbol` column, or an
all-blank symbol set stops the run with a single message and zero
dispatched fetches; once fetching starts, a per-symbol failure never
aborts the run — it surfaces as that symbol's `Error` value in a finished
output. -/
theorem C8_batch_vs_symbol_failures (env : String → YfEnv) :
    (∀ msg, runApp (Upload.unreadable msg) env =
      (RunOutcome.stopped ("Failed to read Excel: " ++ msg), 0)) ∧
    (∀ rows, runApp (Upload.table false rows) env =
      (RunOutcome.stopped "The uploaded file must contain a 'Symbol' column.",
        0)) ∧
    (∀ rows, cleanSymbols (rows.map Row.symCell) = [] →
      runApp (Upload.table true rows) env =
        (RunOutcome.stopped "No symbols found after cleaning.", 0)) ∧
    (∀ rows, cleanSymbols (rows.map Row.symCell) ≠ [] →
      runApp (Upload.table true rows) env =
        (RunOutcome.finished (mergeRows rows
          (runBatch env (cleanSymbols (rows.map Row.symCell)))),
          (cleanSymbols (rows.map Row.symCell)).length) ∧
      ∀ s ∈ cleanSymbols (rows.map Row.symCell), ∀ msg,
        (env s).tickerRaise = some msg →
        ∃ r ∈ runBatch env (cleanSymbols (rows.map Row.symCell)),
          r.Symbol = s ∧ r.Error = some msg) := by
  refine ⟨fun msg => rfl, fun rows => rfl, fun rows hnil => ?_,
    fun rows hne => ⟨?_, fun s hs msg hmsg => ?_⟩⟩
  · have hemp : (cleanSymbols (rows.map Row.symCell)).isEmpty = true := by
      simpa [List.isEmpty_iff] using hnil
    simp [runApp, hemp]
  · have hemp : (cleanSymbols (rows.map Row.symCell)).isEmpty = false := by
      simpa [List.isEmpty_iff] using hne
    simp [runApp, hemp]
  · refine ⟨fetch_from_yf s (env s), ?_, fetch_symbol s (env s), ?_⟩
    · unfold runBatch
      exact List.mem_map.mpr ⟨s, hs, rfl⟩
    · rw [fetch_raise hmsg]

/-- Witness for C8: a one-row table whose single symbol's provider raises
still finishes, with the failure inside the output row. -/
theorem C8_batch_vs_symbol_failures_witness :
    runApp (Upload.table true [⟨some "aapl", []⟩])
        (fun _ => ⟨some "boom", GedResponse.noData, CalResponse.noData, 0⟩) =
      (RunOutcome.finished (mergeRows [⟨some "aapl", []⟩]
        (runBatch
          (fun _ => ⟨some "boom", GedResponse.noData, CalResponse.noData, 0⟩)
          (cleanSymbols [some "aapl"]))), 1) ∧
    runApp (Upload.unreadable "corrupt")
        (fun _ => ⟨some "boom", GedResponse.noData, CalResponse.noData, 0⟩) =
      (RunOutcome.stopped "Failed to read Excel: corrupt", 0) := by
  constructor
  · have h := ((C8_batch_vs_symbol_failures
        (fun _ => ⟨some "boom", GedResponse.noData, CalResponse.noData, 0⟩)
      ).2.2.2 [⟨some "aapl", []⟩] (by decide)).1
    rw [h]
    rfl
  · exact (C8_batch_vs_symbol_failures
      (fun _ => ⟨some "boom", GedResponse.noData, CalResponse.noData, 0⟩)
      ).1 "corrupt"

/-- Claim C9: a missing/NaN `Symbol` cell becomes the literal string
"NAN" after `astype(str).strip().upper()`, is not excluded as blank, is
dispatched as a real fetch, and the same cell's merge key is also "NAN",
so the row receives the fetch result for "NAN" rather than all-absent
fields. -/
theorem C9_nan_cell (rows : List Row) (env : String → YfEnv)
    (i : Nat) (hi : i < rows.length)
    (hnan : (rows.get ⟨i, hi⟩).symCell = none) :
    cleanSym none = "NAN" ∧
    "NAN" ∈ cleanSymbols (rows.map Row.symCell) ∧
    mergeKey none = "NAN" ∧
    ((mergeRows rows
        (runBatch env (cleanSymbols (rows.map Row.symCell)))).get
      ⟨i, by simpa [mergeRows] using hi⟩ =
      ⟨rows.get ⟨i, hi⟩,
        (fetch_from_yf "NAN" (env "NAN")).NextEarningsDate,
        (fetch_from_yf "NAN" (env "NAN")).Source,
        (fetch_from_yf "NAN" (env "NAN")).Details,
        (fetch_from_yf "NAN" (env "NAN")).Error⟩) ∧
    ¬((fetch_from_yf "NAN" (env "NAN")).NextEarningsDate = none ∧
      (fetch_from_yf "NAN" (env "NAN")).Error = none) := by
  have hclean : cleanSym none = "NAN" := by decide
  have hmem : "NAN" ∈ cleanSymbols (rows.map Row.symCell) := by
    refine mem_cleanSymbols.mpr ⟨⟨none, ?_, hclean⟩, by decide⟩
    exact List.mem_map.mpr ⟨rows.get ⟨i, hi⟩, List.get_mem rows _ _, hnan⟩
  refine ⟨hclean, hmem, by decide, ?_, ?_⟩
  · rw [mergeRows_get rows _ i hi]
    unfold joinRow
    rw [hnan, show mergeKey none = "NAN" from rfl,
      lookup_runBatch_mem env hmem]
  · rcases fetch_cases "NAN" (env "NAN") with ⟨h1, h2⟩ | ⟨h1, h2, h3, msg, h4⟩
    · rintro ⟨hd, _⟩
      rw [hd] at h1
      simp at h1
    · rintro ⟨_, he⟩
      rw [h4] at he
      simp at he

/-- Witness for C9: a single NaN cell is fetched as "NAN" and the row
carries the "NAN" fetch's error. -/
theorem C9_nan_cell_witness :
    "NAN" ∈ cleanSymbols (([⟨none, ["x"]⟩] : List Row).map Row.symCell) ∧
    ((mergeRows [⟨none, ["x"]⟩]
        (runBatch (fun _ => ⟨some "no data", GedResponse.noData,
          CalResponse.noData, 0⟩)
          (cleanSymbols (([⟨none, ["x"]⟩] : List Row).map
            Row.symCell)))).get ⟨0, by decide⟩).Error = some "no data" := by
  have h := C9_nan_cell [⟨none, ["x"]⟩]
    (fun _ => ⟨some "no data", GedResponse.noData, CalResponse.noData, 0⟩)
    0 (by decide) rfl
  refine ⟨h.2.1, ?_⟩
  rw [h.2.2.2.1]
  rfl

theorem joinRow_row (results : List ResolutionResult) (row : Row) :
    (joinRow results row).row = row := by
  unfold joinRow
  cases lookupResult results (mergeKey row.symCell) <;> rfl

theorem joinRow_fields (results : List ResolutionResult) {r1 r2 : Row}
    (h : mergeKey r1.symCell = mergeKey r2.symCell) :
    (joinRow results r1).NextEarningsDate =
      (joinRow results r2).NextEarningsDate ∧
    (joinRow results r1).Source = (joinRow results r2).Source ∧
    (joinRow results r1).Details = (joinRow results r2).Details ∧
    (joinRow results r1).Error = (joinRow results r2).Error := by
  unfold joinRow
  rw [h]
  cases lookupResult results (mergeKey r2.symCell) <;>
    exact ⟨rfl, rfl, rfl, rfl⟩

/-- Counterexample to C5 as stated: the claim says the Row Merger's join
key is the row's symbol trimmed and upper-cased — exactly the Batch
Fetcher's normalization — so every row whose cleaned symbol was dispatched
receives that symbol's result. On the code, the join key at line 194 is
upper-cased but NOT trimmed: the row " aapl" is dispatched as the cleaned
symbol "AAPL" and that fetch succeeds, yet its merge key is " AAPL" and
the merged row silently gets all-absent result fields. -/
theorem C5_counterexample :
    cleanSymbols [some " aapl"] = ["AAPL"] ∧
    (fetch_from_yf "AAPL"
        ⟨none, GedResponse.dtIndex [100, 200], CalResponse.noData, 150⟩
      ).NextEarningsDate = some 200 ∧
    mergeKey (some " aapl") = " AAPL" ∧
    mergeRows [⟨some " aapl", []⟩]
        (runBatch (fun _ => ⟨none, GedResponse.dtIndex [100, 200],
          CalResponse.noData, 150⟩) (cleanSymbols [some " aapl"])) =
      [⟨⟨some " aapl", []⟩, none, none, none, none⟩] :=
  ⟨rfl, rfl, rfl, rfl⟩

/-- Amended C5: the Row Merger's join key is the row's symbol value
`astype(str)` upper-cased but NOT trimmed; a row receives a symbol's
ResolutionResult exactly when this untrimmed key is among the dispatched
cleaned symbols, and a row whose key has no match silently receives
all-absent result fields. -/
theorem C5_join_key (rows : List Row) (env : String → YfEnv)
    (i : Nat) (hi : i < rows.length) :
    ((mergeKey (rows.get ⟨i, hi⟩).symCell ∈
        cleanSymbols (rows.map Row.symCell)) →
      (mergeRows rows
          (runBatch env (cleanSymbols (rows.map Row.symCell)))).get
        ⟨i, by simpa [mergeRows] using hi⟩ =
        ⟨rows.get ⟨i, hi⟩,
          (fetch_from_yf (mergeKey (rows.get ⟨i, hi⟩).symCell)
            (env (mergeKey (rows.get ⟨i, hi⟩).symCell))).NextEarningsDate,
          (fetch_from_yf (mergeKey (rows.get ⟨i, hi⟩).symCell)
            (env (mergeKey (rows.get ⟨i, hi⟩).symCell))).Source,
          (fetch_from_yf (mergeKey (rows.get ⟨i, hi⟩).symCell)
            (env (mergeKey (rows.get ⟨i, hi⟩).symCell))).Details,
          (fetch_from_yf (mergeKey (rows.get ⟨i, hi⟩).symCell)
            (env (mergeKey (rows.get ⟨i, hi⟩).symCell))).Error⟩) ∧
    ((mergeKey (rows.get ⟨i, hi⟩).symCell ∉
        cleanSymbols (rows.map Row.symCell)) →
      (mergeRows rows
          (runBatch env (cleanSymbols (rows.map Row.symCell)))).get
        ⟨i, by simpa [mergeRows] using hi⟩ =
        ⟨rows.get ⟨i, hi⟩, none, none, none, none⟩) := by
  constructor
  · intro hmem
    rw [mergeRows_get rows _ i hi]
    unfold joinRow
    rw [lookup_runBatch_mem env hmem]
  · intro hmem
    rw [mergeRows_get rows _ i hi]
    unfold joinRow
    rw [lookup_runBatch_notMem env hmem]

/-- Witness for the amended C5: a trimmed symbol's key matches its
dispatched clean symbol, so the row carries that fetch's fields. -/
theorem C5_join_key_witness :
    (mergeRows [⟨some "aapl", []⟩]
        (runBatch
          (fun _ => ⟨some "boom", GedResponse.noData, CalResponse.noData, 0⟩)
          (cleanSymbols (([⟨some "aapl", []⟩] : List Row).map
            Row.symCell)))).get ⟨0, by decide⟩ =
      ⟨⟨some "aapl", []⟩, none, none, none, some "boom"⟩ := by
  have h := (C5_join_key [⟨some "aapl", []⟩]
      (fun _ => ⟨some "boom", GedResponse.noData, CalResponse.noData, 0⟩)
      0 (by decide)).1 (by decide)
  rw [h]
  rfl

/-- Counterexample to C6 as stated: the rows "aapl" and " aapl" carry the
same normalized (trimmed, upper-cased) symbol "AAPL", yet after the merge
the first row carries the fetched date and the second row carries absent
fields, because the join key does not trim. -/
theorem C6_counterexample :
    cleanSym (some "aapl") = cleanSym (some " aapl") ∧
    (mergeRows [⟨some "aapl", []⟩, ⟨some " aapl", []⟩]
        (runBatch (fun _ => ⟨none, GedResponse.dtIndex [100, 200],
          CalResponse.noData, 150⟩)
          (cleanSymbols [some "aapl", some " aapl"]))).map
      OutputRow.NextEarningsDate = [some 200, none] :=
  ⟨rfl, rfl⟩

/-- Amended C6: the merged output preserves the original row order and all
original columns, only adding the result columns; and any two original
rows whose merge keys (symbol upper-cased, NOT trimmed) coincide receive
the same joined result fields. -/
theorem C6_merge_frame (rows : List Row) (results : List ResolutionResult) :
    (mergeRows rows results).map OutputRow.row = rows ∧
    ∀ i j (hi : i < rows.length) (hj : j < rows.length),
      mergeKey (rows.get ⟨i, hi⟩).symCell =
        mergeKey (rows.get ⟨j, hj⟩).symCell →
      ((mergeRows rows results).get
          ⟨i, by simpa [mergeRows] using hi⟩).NextEarningsDate =
        ((mergeRows rows results).get
          ⟨j, by simpa [mergeRows] using hj⟩).NextEarningsDate ∧
      ((mergeRows rows results).get
          ⟨i, by simpa [mergeRows] using hi⟩).Source =
        ((mergeRows rows results).get
          ⟨j, by simpa [mergeRows] using hj⟩).Source ∧
      ((mergeRows rows results).get
          ⟨i, by simpa [mergeRows] using hi⟩).Details =
        ((mergeRows rows results).get
          ⟨j, by simpa [mergeRows] using hj⟩).Details ∧
      ((mergeRows rows results).get
          ⟨i, by simpa [mergeRows] using hi⟩).Error =
        ((mergeRows rows results).get
          ⟨j, by simpa [mergeRows] using hj⟩).Error := by
  constructor
  · unfold mergeRows
    rw [List.map_map]
    have hfun : (OutputRow.row ∘ joinRow results) = id := by
      funext row
      exact joinRow_row results row
    rw [hfun, List.map_id]
  · intro i j hi hj hkey
    rw [mergeRows_get rows results i hi, mergeRows_get rows results j hj]
    exact joinRow_fields results hkey

/-- Witness for the amended C6: rows "aapl" and "AAPL" share the merge key
"AAPL" and receive the same joined date; original rows are preserved. -/
theorem C6_merge_frame_witness :
    (mergeRows [⟨some "aapl", []⟩, ⟨some "AAPL", []⟩]
        [⟨"AAPL", some 1, some "get_earnings_dates", some "candidates=1",
          none⟩]).map OutputRow.row =
      [⟨some "aapl", []⟩, ⟨some "AAPL", []⟩] ∧
    ((mergeRows [⟨some "aapl", []⟩, ⟨some "AAPL", []⟩]
        [⟨"AAPL", some 1, some "get_earnings_dates", some "candidates=1",
          none⟩]).get ⟨0, by decide⟩).NextEarningsDate =
      ((mergeRows [⟨some "aapl", []⟩, ⟨some "AAPL", []⟩]
        [⟨"AAPL", some 1, some "get_earnings_dates", some "candidates=1",
          none⟩]).get ⟨1, by decide⟩).NextEarningsDate := by
  have h := C6_merge_frame [⟨some "aapl", []⟩, ⟨some "AAPL", []⟩]
    [⟨"AAPL", some 1, some "get_earnings_dates", some "candidates=1", none⟩]
  exact ⟨h.1, (h.2 0 1 (by decide) (by decide) (by decide)).1⟩

end EarningsApp
